import Mathlib

/-!
Verification of the mwoffliner content-acquisition core.

The development shallowly embeds the two source files of the repository:
`Downloader` (the fetch-and-normalize engine) and `RedisKvs`
(src/util/redis-kvs.ts, the resumable store), together with models of the
external collaborators they rely on (the JavaScript `JSON` builtins, the
redis hash commands, the `backoff` npm package, axios error shapes and the
node url parser), and proves or refutes the specification claims about them.
-/

/-! ### Model of the JavaScript JSON builtins (external runtime)

`RedisKvs` writes non-string values with `JSON.stringify` and reads every
raw reply back with `JSON.parse`.  Values are modelled by `JsValue`, with
strings carried as character lists.  `stringify` prints the literals
`null` / `true` / `false`, decimal numerals, and quoted strings with `"` and
`\` escaped; `parseChars` is the corresponding reader and returns `none`
where `JSON.parse` would throw. -/

inductive JsValue where
  | jsNull
  | jsBool (b : Bool)
  | jsNum (n : Nat)
  | jsStr (s : List Char)
deriving DecidableEq, Repr

def escapeChars : List Char → List Char
  | [] => []
  | c :: rest => (if c = '"' ∨ c = '\\' then ['\\', c] else [c]) ++ escapeChars rest

def natToCharsAux : Nat → Nat → List Char
  | 0, _ => []
  | _, 0 => []
  | fuel + 1, n => natToCharsAux fuel (n / 10) ++ [Nat.digitChar (n % 10)]

def natToChars (n : Nat) : List Char :=
  if n = 0 then ['0'] else natToCharsAux n n

def stringify : JsValue → List Char
  | .jsNull => ['n', 'u', 'l', 'l']
  | .jsBool true => ['t', 'r', 'u', 'e']
  | .jsBool false => ['f', 'a', 'l', 's', 'e']
  | .jsNum n => natToChars n
  | .jsStr s => '"' :: (escapeChars s ++ ['"'])

/-- Reads the body of a JSON string literal (the part after the opening
quote), undoing `escapeChars`; the closing quote must end the input.  The
flag records whether the previous character was an unconsumed backslash. -/
def parseStrBody (escaping : Bool) : List Char → Option (List Char)
  | [] => none
  | c :: rest =>
    if escaping then (parseStrBody false rest).map (c :: ·)
    else if c = '"' then (if rest = [] then some [] else none)
    else if c = '\\' then parseStrBody true rest
    else (parseStrBody false rest).map (c :: ·)

def charToDigit (c : Char) : Nat := c.toNat - '0'.toNat

def charsToNat (l : List Char) : Nat := Nat.ofDigits 10 ((l.map charToDigit).reverse)

def parseChars (l : List Char) : Option JsValue :=
  if l = ['n', 'u', 'l', 'l'] then some .jsNull
  else if l = ['t', 'r', 'u', 'e'] then some (.jsBool true)
  else if l = ['f', 'a', 'l', 's', 'e'] then some (.jsBool false)
  else if l.head? = some '"' then (parseStrBody false l.tail).map .jsStr
  else if l ≠ [] ∧ l.all Char.isDigit then some (.jsNum (charsToNat l))
  else none

theorem parseStrBody_escapeChars (s : List Char) :
    parseStrBody false (escapeChars s ++ ['"']) = some s := by
  induction s with
  | nil => rfl
  | cons c t ih =>
    by_cases h : c = '"' ∨ c = '\\'
    · rw [escapeChars, if_pos h]
      show parseStrBody false ('\\' :: c :: (escapeChars t ++ ['"'])) = _
      rw [parseStrBody, if_neg (by decide), if_neg (by decide), if_pos rfl,
        parseStrBody, if_pos rfl, ih]
      rfl
    · push_neg at h
      rw [escapeChars, if_neg (by tauto : ¬(c = '"' ∨ c = '\\'))]
      show parseStrBody false (c :: (escapeChars t ++ ['"'])) = _
      rw [parseStrBody, if_neg (by decide), if_neg h.1, if_neg h.2, ih]
      rfl

theorem parseStrBody_length :
    ∀ (l : List Char) (b : Bool) (t : List Char),
      parseStrBody b l = some t → t.length < l.length := by
  intro l
  induction l with
  | nil => intro b t h; simp [parseStrBody] at h
  | cons c rest ih =>
    intro b t h
    rw [parseStrBody] at h
    by_cases hb : b = true
    · rw [if_pos hb] at h
      obtain ⟨t', ht', rfl⟩ := Option.map_eq_some'.mp h
      have := ih false t' ht'
      simp only [List.length_cons]
      omega
    · rw [if_neg hb] at h
      by_cases hq : c = '"'
      · rw [if_pos hq] at h
        by_cases hr : rest = []
        · rw [if_pos hr] at h
          injection h with h
          subst h; simp
        · rw [if_neg hr] at h
          exact absurd h (by simp)
      · rw [if_neg hq] at h
        by_cases hbs : c = '\\'
        · rw [if_pos hbs] at h
          have := ih true t h
          simp only [List.length_cons]
          omega
        · rw [if_neg hbs] at h
          obtain ⟨t', ht', rfl⟩ := Option.map_eq_some'.mp h
          have := ih false t' ht'
          simp only [List.length_cons]
          omega

theorem charToDigit_digitChar {d : Nat} (h : d < 10) :
    charToDigit (Nat.digitChar d) = d := by
  interval_cases d <;> decide

theorem isDigit_digitChar {d : Nat} (h : d < 10) :
    (Nat.digitChar d).isDigit = true := by
  interval_cases d <;> decide

theorem natToCharsAux_eq_digits :
    ∀ (fuel n : Nat), n ≤ fuel →
      natToCharsAux fuel n = ((Nat.digits 10 n).map Nat.digitChar).reverse := by
  intro fuel
  induction fuel with
  | zero =>
    intro n hn
    have : n = 0 := by omega
    subst this
    simp [natToCharsAux]
  | succ fuel ih =>
    intro n hn
    by_cases h0 : n = 0
    · subst h0; simp [natToCharsAux]
    · rw [natToCharsAux]
      rw [Nat.digits_def' (by norm_num : (1 : Nat) < 10) (by omega)]
      rw [List.map_cons, List.reverse_cons]
      have hdiv : n / 10 ≤ fuel := by
        have := Nat.div_lt_self (by omega : 0 < n) (by norm_num : (1 : Nat) < 10)
        omega
      rw [ih (n / 10) hdiv]
      exact h0

theorem natToChars_eq_digits {n : Nat} (h : n ≠ 0) :
    natToChars n = ((Nat.digits 10 n).map Nat.digitChar).reverse := by
  rw [natToChars, if_neg h, natToCharsAux_eq_digits n n (le_refl n)]

theorem charsToNat_natToChars (n : Nat) : charsToNat (natToChars n) = n := by
  by_cases h : n = 0
  · subst h; decide
  · rw [natToChars_eq_digits h, charsToNat, List.map_reverse, List.reverse_reverse,
      List.map_map]
    have hmap : (Nat.digits 10 n).map (charToDigit ∘ Nat.digitChar) =
        (Nat.digits 10 n).map id := by
      apply List.map_congr_left
      intro d hd
      exact charToDigit_digitChar (Nat.digits_lt_base (by norm_num) hd)
    rw [hmap, List.map_id, Nat.ofDigits_digits]

theorem natToChars_all_digits (n : Nat) : (natToChars n).all Char.isDigit = true := by
  by_cases h : n = 0
  · subst h; decide
  · rw [natToChars_eq_digits h, List.all_eq_true]
    intro c hc
    rw [List.mem_reverse, List.mem_map] at hc
    obtain ⟨d, hd, rfl⟩ := hc
    exact isDigit_digitChar (Nat.digits_lt_base (by norm_num) hd)

theorem natToChars_ne_nil (n : Nat) : natToChars n ≠ [] := by
  by_cases h : n = 0
  · subst h; decide
  · rw [natToChars_eq_digits h]
    simp [Nat.digits_ne_nil_iff_ne_zero.mpr h]

theorem all_digits_not_lit {l : List Char} (hall : l.all Char.isDigit = true) :
    l ≠ ['n', 'u', 'l', 'l'] ∧ l ≠ ['t', 'r', 'u', 'e'] ∧ l ≠ ['f', 'a', 'l', 's', 'e'] ∧
      l.head? ≠ some '"' := by
  rw [List.all_eq_true] at hall
  refine ⟨?_, ?_, ?_, ?_⟩ <;> intro hcontra
  · exact absurd (hall 'n' (by rw [hcontra]; simp)) (by decide)
  · exact absurd (hall 't' (by rw [hcontra]; simp)) (by decide)
  · exact absurd (hall 'f' (by rw [hcontra]; simp)) (by decide)
  · cases l with
    | nil => exact absurd hcontra (by simp)
    | cons c cs =>
      simp only [List.head?_cons, Option.some.injEq] at hcontra
      subst hcontra
      exact absurd (hall '"' (by simp)) (by decide)

theorem parseChars_stringify (v : JsValue) : parseChars (stringify v) = some v := by
  cases v with
  | jsNull => decide
  | jsBool b => cases b <;> decide
  | jsNum n =>
    have hall := natToChars_all_digits n
    have hne := natToChars_ne_nil n
    obtain ⟨h1, h2, h3, h4⟩ := all_digits_not_lit hall
    rw [stringify, parseChars, if_neg h1, if_neg h2, if_neg h3, if_neg h4,
      if_pos ⟨hne, hall⟩, charsToNat_natToChars]
  | jsStr s =>
    rw [stringify, parseChars]
    rw [if_neg (by simp), if_neg (by simp), if_neg (by simp), if_pos (by simp)]
    simp [parseStrBody_escapeChars]

theorem parseChars_ne_jsStr_self (s : List Char) :
    parseChars s ≠ some (.jsStr s) := by
  rw [parseChars]
  split
  · simp
  · split
    · simp
    · split
      · simp
      · split
        · intro hcontra
          obtain ⟨t, ht, hts⟩ := Option.map_eq_some'.mp hcontra
          have hlen := parseStrBody_length _ _ _ ht
          have hts' : t = s := by
            have := congrArg (fun x => match x with | JsValue.jsStr u => u | _ => []) hts
            simpa using this
          subst hts'
          have htail : t.tail.length ≤ t.length := by
            cases t <;> simp
          omega
        · split
          · simp
          · simp

/-! ### Model of `RedisKvs` `set` / `get` (src/util/redis-kvs.ts)

A redis hash table is an association list from field names to raw stored
character strings.  `hset` / `hget` model the redis commands; `hget` replies
`none` (a redis null) when the field is absent.

`RedisKvs.set` stores `typeof val !== 'string' ? JSON.stringify(val) : val`;
`RedisKvs.get` resolves with `JSON.parse(val)` applied to the raw reply.
In JavaScript, `JSON.parse(null)` coerces its argument to the text `"null"`
and parses it to `null`, so an absent key parses to `null`; on a reply that
is not valid JSON, `JSON.parse` throws and the promise never resolves with a
value, which the model renders as `none`. -/

abbrev RedisTable := List (String × List Char)

def hset (t : RedisTable) (k : String) (v : List Char) : RedisTable :=
  (k, v) :: t.filter (fun e => e.1 ≠ k)

def hget (t : RedisTable) (k : String) : Option (List Char) :=
  (t.find? (fun e => e.1 == k)).map (·.2)

def normaliseVal : JsValue → List Char
  | .jsStr s => s
  | v => stringify v

def RedisKvs.set (t : RedisTable) (k : String) (v : JsValue) : RedisTable :=
  hset t k (normaliseVal v)

def RedisKvs.get (t : RedisTable) (k : String) : Option JsValue :=
  match hget t k with
  | none => parseChars ['n', 'u', 'l', 'l']
  | some s => parseChars s

theorem hget_hset_self (t : RedisTable) (k : String) (v : List Char) :
    hget (hset t k v) k = some v := by
  simp [hget, hset, List.find?]

/-- C4 (counterexample): storing the plain string value `hello` under a key
and reading it back does not resolve with that string: the raw stored text
`hello` is not valid JSON, so `JSON.parse` throws on read instead of
returning the original value. -/
theorem redisKvs_string_roundtrip_cex :
    RedisKvs.get (RedisKvs.set [] "k" (.jsStr ['h', 'e', 'l', 'l', 'o'])) "k" ≠
      some (.jsStr ['h', 'e', 'l', 'l', 'o']) := by decide

/-- C4 (amended): after `set(k, v)`, `get(k)` resolves with `v` exactly when
`v` is a non-string value (it is JSON-encoded on write and parsed back on
read); a string value is stored unencoded but still `JSON.parse`d on read,
so `get` never resolves with the original string. -/
theorem redisKvs_set_get_amended :
    (∀ (t : RedisTable) (k : String) (v : JsValue), (∀ s, v ≠ .jsStr s) →
      RedisKvs.get (RedisKvs.set t k v) k = some v) ∧
    (∀ (t : RedisTable) (k : String) (s : List Char),
      RedisKvs.get (RedisKvs.set t k (.jsStr s)) k ≠ some (.jsStr s)) := by
  constructor
  · intro t k v hv
    have hnorm : normaliseVal v = stringify v := by
      cases v with
      | jsStr s => exact absurd rfl (hv s)
      | jsNull => rfl
      | jsBool b => rfl
      | jsNum n => rfl
    simp only [RedisKvs.get, RedisKvs.set, hget_hset_self, hnorm, parseChars_stringify]
  · intro t k s
    simp only [RedisKvs.get, RedisKvs.set, hget_hset_self, normaliseVal]
    exact parseChars_ne_jsStr_self s

/-- Witness for `redisKvs_set_get_amended` at concrete inputs. -/
theorem redisKvs_set_get_amended_witness :
    RedisKvs.get (RedisKvs.set [] "k" .jsNull) "k" = some .jsNull ∧
    RedisKvs.get (RedisKvs.set [] "k" (.jsStr ['a'])) "k" ≠ some (.jsStr ['a']) :=
  ⟨redisKvs_set_get_amended.1 [] "k" .jsNull (fun s => by simp),
   redisKvs_set_get_amended.2 [] "k" ['a']⟩

/-- C10: for a key with no stored value, `get` resolves successfully with
null: the redis null reply is coerced by `JSON.parse` to the text `null`,
which parses to the JSON null value — the call neither rejects nor resolves
with undefined. -/
theorem redisKvs_get_missing (t : RedisTable) (k : String) (h : hget t k = none) :
    RedisKvs.get t k = some .jsNull := by
  rw [RedisKvs.get, h]
  decide

/-- Witness for `redisKvs_get_missing`: the empty table has no value under
`a`. -/
theorem redisKvs_get_missing_witness :
    hget [] "a" = none ∧ RedisKvs.get [] "a" = some .jsNull :=
  ⟨rfl, redisKvs_get_missing [] "a" rfl⟩

/-! ### Model of the backoff policy (`Downloader.backoffOptions` / `backoffCall`)

`backoffCall` wraps one unit of work with the `backoff` npm package:
`call.retryIf(this.backoffOptions.retryIf)` and `call.failAfter(7)`.  The
library runs the work once and, on failure, retries while the predicate
holds and fewer than `failAfter` backoffs have occurred; past the ceiling
(or when the predicate rejects the error) the last error is surfaced
unchanged.  `AxiosError` models the error shape the predicate inspects:
`err.code` and `err.response?.status` (`none` when there is no response, so
`err.response?.status !== 404` is true). -/

structure AxiosError where
  code : Option String
  status : Option Nat
deriving DecidableEq, Repr

def retryIf (err : AxiosError) : Bool :=
  err.code == some "ECONNABORTED" || err.status != some 404

def backoffFrom {α : Type} (work : Nat → Except AxiosError α) :
    Nat → Nat → Except AxiosError α
  | attempt, 0 =>
    match work attempt with
    | .ok a => .ok a
    | .error e => .error e
  | attempt, r + 1 =>
    match work attempt with
    | .ok a => .ok a
    | .error e => if retryIf e then backoffFrom work (attempt + 1) r else .error e

def backoffCall {α : Type} (work : Nat → Except AxiosError α) : Except AxiosError α :=
  backoffFrom work 0 7

theorem backoffFrom_error_surfaced {α : Type} (work : Nat → Except AxiosError α) :
    ∀ (r a : Nat) (e : AxiosError), backoffFrom work a r = .error e →
      ∃ i, a ≤ i ∧ i ≤ a + r ∧ work i = .error e := by
  intro r
  induction r with
  | zero =>
    intro a e h
    cases hw : work a with
    | ok v => simp only [backoffFrom, hw] at h; exact absurd h (by simp)
    | error e' =>
      simp only [backoffFrom, hw] at h
      injection h with h
      exact ⟨a, le_refl a, by omega, by rw [hw, h]⟩
  | succ r ih =>
    intro a e h
    cases hw : work a with
    | ok v => simp only [backoffFrom, hw] at h; exact absurd h (by simp)
    | error e' =>
      simp only [backoffFrom, hw] at h
      by_cases hr : retryIf e' = true
      · rw [if_pos hr] at h
        obtain ⟨i, hi1, hi2, hi3⟩ := ih (a + 1) e h
        exact ⟨i, by omega, by omega, hi3⟩
      · rw [if_neg hr] at h
        injection h with h
        exact ⟨a, le_refl a, by omega, by rw [hw, h]⟩

theorem backoffFrom_ok_within {α : Type} (work : Nat → Except AxiosError α) :
    ∀ (r a : Nat) (v : α), backoffFrom work a r = .ok v →
      ∃ i, a ≤ i ∧ i ≤ a + r ∧ work i = .ok v := by
  intro r
  induction r with
  | zero =>
    intro a v h
    cases hw : work a with
    | ok v' =>
      simp only [backoffFrom, hw] at h
      injection h with h
      exact ⟨a, le_refl a, by omega, by rw [hw, h]⟩
    | error e => simp only [backoffFrom, hw] at h; exact absurd h (by simp)
  | succ r ih =>
    intro a v h
    cases hw : work a with
    | ok v' =>
      simp only [backoffFrom, hw] at h
      injection h with h
      exact ⟨a, le_refl a, by omega, by rw [hw, h]⟩
    | error e =>
      simp only [backoffFrom, hw] at h
      by_cases hr : retryIf e = true
      · rw [if_pos hr] at h
        obtain ⟨i, hi1, hi2, hi3⟩ := ih (a + 1) v h
        exact ⟨i, by omega, by omega, hi3⟩
      · rw [if_neg hr] at h; exact absurd h (by simp)

theorem backoffFrom_const_error {α : Type} (work : Nat → Except AxiosError α)
    (e : AxiosError) (hall : ∀ i, work i = .error e) :
    ∀ (r a : Nat), backoffFrom work a r = .error e := by
  intro r
  induction r with
  | zero => intro a; simp only [backoffFrom, hall]
  | succ r ih =>
    intro a
    simp only [backoffFrom, hall]
    by_cases hr : retryIf e = true
    · rw [if_pos hr]; exact ih (a + 1)
    · rw [if_neg hr]

/-- C5 (counterexample): an error carrying a 404 status IS retried when its
code is `ECONNABORTED`: the retry predicate
`err.code === 'ECONNABORTED' || err.response?.status !== 404` lets the
timeout clause override the not-found clause, so a work item that fails once
with such an error and then succeeds returns the success — it was retried,
contradicting `an error carrying a 404 status is never retried`. -/
theorem backoff_404_retried_cex :
    backoffCall (fun i => if i = 0
        then .error ⟨some "ECONNABORTED", some 404⟩ else .ok 42) = .ok 42 ∧
      (AxiosError.mk (some "ECONNABORTED") (some 404)).status = some 404 := by
  constructor
  · rfl
  · rfl

/-- C5 (amended): the wrapped work is retried at most 7 times (every
surfaced outcome, success or error, is produced by one of attempts 0..7,
and the surfaced error is the last error unchanged); an error carrying a
404 status whose code is not `ECONNABORTED` is never retried (it is
surfaced from the first attempt); an `ECONNABORTED` error always satisfies
the retry predicate. -/
theorem backoff_policy_amended {α : Type} :
    (∀ (work : Nat → Except AxiosError α) (e : AxiosError),
      backoffCall work = .error e → ∃ i, i ≤ 7 ∧ work i = .error e) ∧
    (∀ (work : Nat → Except AxiosError α) (v : α),
      backoffCall work = .ok v → ∃ i, i ≤ 7 ∧ work i = .ok v) ∧
    (∀ (work : Nat → Except AxiosError α) (e : AxiosError),
      (∀ i, work i = .error e) → backoffCall work = .error e) ∧
    (∀ (work : Nat → Except AxiosError α) (e : AxiosError), work 0 = .error e →
      e.status = some 404 → e.code ≠ some "ECONNABORTED" →
      backoffCall work = .error e) ∧
    (∀ e : AxiosError, e.code = some "ECONNABORTED" → retryIf e = true) := by
  refine ⟨?_, ?_, ?_, ?_, ?_⟩
  · intro work e h
    obtain ⟨i, _, hi2, hi3⟩ := backoffFrom_error_surfaced work 7 0 e h
    exact ⟨i, by omega, hi3⟩
  · intro work v h
    obtain ⟨i, _, hi2, hi3⟩ := backoffFrom_ok_within work 7 0 v h
    exact ⟨i, by omega, hi3⟩
  · intro work e hall
    exact backoffFrom_const_error work e hall 7 0
  · intro work e hw h404 hcode
    have hretry : retryIf e = false := by
      rw [retryIf, h404]
      cases hc : e.code with
      | none => rfl
      | some c =>
        have : c ≠ "ECONNABORTED" := by
          intro hcontra; exact hcode (by rw [hc, hcontra])
        simp [this]
    simp only [backoffCall, backoffFrom, hw]
    rw [if_neg (by simp [hretry])]
  · intro e hc
    rw [retryIf, hc]
    rfl

/-- Witness for `backoff_policy_amended` at concrete inputs. -/
theorem backoff_policy_amended_witness :
    (∃ i, i ≤ 7 ∧ (fun _ : Nat => (.error ⟨none, some 500⟩ : Except AxiosError Nat)) i =
      .error ⟨none, some 500⟩) ∧
    backoffCall (fun _ : Nat => (.error ⟨none, some 404⟩ : Except AxiosError Nat)) =
      .error ⟨none, some 404⟩ ∧
    retryIf ⟨some "ECONNABORTED", none⟩ = true :=
  ⟨(backoff_policy_amended (α := Nat)).1 _ ⟨none, some 500⟩
      ((backoff_policy_amended (α := Nat)).2.2.1 _ ⟨none, some 500⟩ (fun _ => rfl)),
   (backoff_policy_amended (α := Nat)).2.2.2.1 _ ⟨none, some 404⟩ rfl rfl (by simp),
   (backoff_policy_amended (α := Nat)).2.2.2.2 ⟨some "ECONNABORTED", none⟩ rfl⟩

/-! ### Model of the request throttle (`claimRequest` / `releaseRequest` / 429 shrink)

State: the in-flight counter `activeRequests` (an integer; `releaseRequest`
decrements unconditionally) and the ceiling `maxActiveRequests`.
`claimRequest` admits and increments only when `activeRequests <
maxActiveRequests`, otherwise it sleeps and re-polls without changing state.
A 429 response (in `getJSONCb` / `errHandler`) sets the ceiling to
`Math.max(Math.ceil(this.maxActiveRequests * 0.9), 1)`; over the integer
range of this program the double-precision product `m * 0.9` rounds to
within half an ulp of `9m/10`, so `Math.ceil` of it equals the exact
`⌈9m/10⌉`, modelled here in exact arithmetic.  Scheduling is cooperative
and single-threaded, so a run is a sequence of these atomic operations. -/

def shrinkCeil (m : Nat) : Nat := max ((9 * m + 9) / 10) 1

structure ThrottleState where
  activeRequests : Int
  maxActiveRequests : Nat
deriving DecidableEq, Repr

inductive ThrottleOp where
  | claimRequest
  | releaseRequest
  | rateLimited
deriving DecidableEq, Repr

def throttleStep (s : ThrottleState) : ThrottleOp → ThrottleState
  | .claimRequest =>
    if s.activeRequests < (s.maxActiveRequests : Int) then
      { s with activeRequests := s.activeRequests + 1 }
    else s
  | .releaseRequest => { s with activeRequests := s.activeRequests - 1 }
  | .rateLimited => { s with maxActiveRequests := shrinkCeil s.maxActiveRequests }

def throttleRun (s : ThrottleState) (ops : List ThrottleOp) : ThrottleState :=
  ops.foldl throttleStep s

/-- C6 (counterexample): starting from speed 1 (ceiling 10, idle), ten
claims fill the ceiling and a single rate-limit shrink lowers the ceiling
to 9 while ten requests are still in flight, so the observed in-flight
count exceeds the current ceiling. -/
theorem throttle_bound_cex :
    ((throttleRun ⟨0, 10⟩ (List.replicate 10 .claimRequest ++ [.rateLimited])).activeRequests >
      ((throttleRun ⟨0, 10⟩ (List.replicate 10 .claimRequest ++
        [.rateLimited])).maxActiveRequests : Int)) := by decide

/-- C6 (amended): claims and releases alone never push the in-flight count
above the ceiling (the bound `activeRequests ≤ maxActiveRequests` is
preserved by every claim and release), and a claim is never admitted while
the count is at or above the ceiling; only a rate-limit shrink can leave
the count transiently above the (new, lower) ceiling. -/
theorem throttle_bound_amended :
    (∀ (s : ThrottleState) (ops : List ThrottleOp),
      s.activeRequests ≤ (s.maxActiveRequests : Int) →
      (∀ op ∈ ops, op ≠ .rateLimited) →
      (throttleRun s ops).activeRequests ≤ ((throttleRun s ops).maxActiveRequests : Int)) ∧
    (∀ s : ThrottleState, (s.maxActiveRequests : Int) ≤ s.activeRequests →
      throttleStep s .claimRequest = s) := by
  constructor
  · intro s ops
    induction ops generalizing s with
    | nil => intro h _; exact h
    | cons op rest ih =>
      intro h hops
      rw [throttleRun, List.foldl_cons]
      apply ih
      · cases op with
        | claimRequest =>
          rw [throttleStep]
          split
          · next hlt => simpa using hlt
          · exact h
        | releaseRequest =>
          rw [throttleStep]
          simp only
          omega
        | rateLimited => exact absurd rfl (hops .rateLimited (by simp))
      · intro op' hop'
        exact hops op' (List.mem_cons_of_mem _ hop')
  · intro s hge
    rw [throttleStep, if_neg (by omega)]

/-- Witness for `throttle_bound_amended` at concrete inputs. -/
theorem throttle_bound_amended_witness :
    (throttleRun ⟨0, 2⟩ [.claimRequest, .claimRequest, .claimRequest]).activeRequests ≤
      ((throttleRun ⟨0, 2⟩ [.claimRequest, .claimRequest,
        .claimRequest]).maxActiveRequests : Int) ∧
    throttleStep ⟨2, 2⟩ .claimRequest = ⟨2, 2⟩ :=
  ⟨throttle_bound_amended.1 ⟨0, 2⟩ [.claimRequest, .claimRequest, .claimRequest]
      (by decide) (by decide),
   throttle_bound_amended.2 ⟨2, 2⟩ (by decide)⟩

/-- C7: every rate-limit response sets the ceiling to
`max(⌈0.9 · ceiling⌉, 1)`, and consequently, over any run starting with a
ceiling of at least 1, the ceiling never grows, never drops below 1, and is
non-increasing step by step. -/
theorem ceiling_monotone_nonincreasing (s : ThrottleState) (ops : List ThrottleOp)
    (h : 1 ≤ s.maxActiveRequests) :
    (throttleStep s .rateLimited).maxActiveRequests = shrinkCeil s.maxActiveRequests ∧
    (throttleRun s ops).maxActiveRequests ≤ s.maxActiveRequests ∧
    1 ≤ (throttleRun s ops).maxActiveRequests := by
  refine ⟨rfl, ?_⟩
  induction ops generalizing s with
  | nil => exact ⟨le_refl _, h⟩
  | cons op rest ih =>
    rw [throttleRun, List.foldl_cons]
    have hstep : (throttleStep s op).maxActiveRequests ≤ s.maxActiveRequests ∧
        1 ≤ (throttleStep s op).maxActiveRequests := by
      cases op with
      | claimRequest =>
        rw [throttleStep]
        split <;> exact ⟨le_refl _, h⟩
      | releaseRequest => exact ⟨le_refl _, h⟩
      | rateLimited =>
        refine ⟨?_, ?_⟩
        · show shrinkCeil s.maxActiveRequests ≤ s.maxActiveRequests
          rw [shrinkCeil]
          omega
        · show 1 ≤ shrinkCeil s.maxActiveRequests
          rw [shrinkCeil]
          omega
    obtain ⟨ih1, ih2⟩ := ih (throttleStep s op) hstep.2
    exact ⟨le_trans ih1 hstep.1, ih2⟩

/-- Witness for `ceiling_monotone_nonincreasing` at a concrete input. -/
theorem ceiling_monotone_nonincreasing_witness :
    (throttleStep ⟨0, 10⟩ .rateLimited).maxActiveRequests = shrinkCeil 10 ∧
    (throttleRun ⟨0, 10⟩ [.rateLimited, .rateLimited]).maxActiveRequests ≤ 10 ∧
    1 ≤ (throttleRun ⟨0, 10⟩ [.rateLimited, .rateLimited]).maxActiveRequests :=
  ceiling_monotone_nonincreasing ⟨0, 10⟩ [.rateLimited, .rateLimited] (by decide)

/-! ### Model of `Downloader.downloadContent` (cache read, fetch, cache write)

The outcome of one `downloadContent` call as a function of its branch
inputs: whether the download cache is enabled, whether a cache directory is
configured, the result of the cache lookup (`some` on a hit, `none` on a
miss or read error — the catch block treats a read error as a miss), the
backoff-wrapped fetch outcome, and the outcome of `writeToDownloadCache`.
On a fetch success with caching enabled and a directory configured, the
code awaits the cache write and, if it throws, logs and rejects with
`{ message: 'Failed to cache download', err }`. -/

structure DownloadArgs (α ε : Type) where
  useDownloadCache : Bool
  downloadCacheDirectory : Option String
  cacheRead : Option α
  fetchResult : Except ε α
  cacheWrite : Except ε Unit

inductive DownloadError (ε : Type) where
  | fetchFailed (e : ε)
  | failedToCacheDownload (e : ε)
deriving DecidableEq, Repr

def downloadContentAfterFetch {α ε : Type} (a : DownloadArgs α ε) :
    Except (DownloadError ε) α :=
  match a.fetchResult with
  | .error e => .error (.fetchFailed e)
  | .ok v =>
    if a.useDownloadCache ∧ a.downloadCacheDirectory.isSome then
      match a.cacheWrite with
      | .ok _ => .ok v
      | .error e => .error (.failedToCacheDownload e)
    else .ok v

def downloadContent {α ε : Type} (a : DownloadArgs α ε) : Except (DownloadError ε) α :=
  if a.useDownloadCache then
    match a.cacheRead with
    | some v => .ok v
    | none => downloadContentAfterFetch a
  else downloadContentAfterFetch a

/-- C3 (counterexample): with the disk cache enabled and a cache directory
configured, a successful fetch followed by a failing cache write makes
`downloadContent` reject with the wrapped `Failed to cache download` error
instead of returning the fetched content. -/
theorem downloadContent_cache_write_cex :
    downloadContent (α := Nat) (ε := Nat)
        ⟨true, some "dir", none, .ok 42, .error 7⟩ ≠ .ok 42 := by
  simp [downloadContent, downloadContentAfterFetch]

/-- C3 (amended): when the disk cache is enabled and a cache directory is
configured, a cache-write failure after a successful origin fetch is fatal
for that call: it is logged and the call rejects with a wrapped
`Failed to cache download` error; the fetched content is returned only when
the cache write succeeds (or when no cache directory is configured, in
which case the write is skipped). -/
theorem downloadContent_cache_write_amended {α ε : Type} (v : α) (e : ε)
    (dir : String) :
    downloadContent ⟨true, some dir, none, .ok v, .error e⟩ =
      .error (.failedToCacheDownload e) ∧
    downloadContent ⟨true, some dir, none, .ok v, .ok ()⟩ = (.ok v : Except (DownloadError ε) α) ∧
    downloadContent ⟨true, none, none, .ok v, .error e⟩ = (.ok v : Except (DownloadError ε) α) := by
  refine ⟨?_, ?_, ?_⟩ <;>
    simp [downloadContent, downloadContentAfterFetch]

/-! ### Model of `Downloader.getArticle` / `getArticleUrl` (sticky fallback latch)

`ArticleRunState` carries the two pieces of downloader state the article
path reads: the run-wide sticky `forceParsoidFallback` latch and the probed
`mcsAvailable` capability.  `getArticleUrl` selects the backend;
`getArticleAux` models one `getArticle` call: the backend's response is an
oracle from the selected backend, an `api_error` body sets the latch and
fails the attempt (the local `forceParsoidFallback` variable is also set,
so the catch block rethrows), a 404 propagates, and any other failure
retries exactly once forced onto the fallback. -/

inductive Backend where
  | mcs
  | parsoidFallback
deriving DecidableEq, Repr

structure ArticleRunState where
  forceParsoidFallback : Bool
  mcsAvailable : Bool
deriving DecidableEq, Repr

def getArticleUrl (st : ArticleRunState) (forceParsoidFallbackArg isMainPage : Bool) :
    Backend :=
  if forceParsoidFallbackArg || st.forceParsoidFallback || isMainPage
      || !st.mcsAvailable then
    .parsoidFallback
  else .mcs

inductive ArticleResp where
  | apiError
  | okJson (v : Nat)
  | httpError (status : Nat)
deriving DecidableEq, Repr

inductive ArticleFailure where
  | apiError
  | httpError (status : Nat)
  | noFuel
deriving DecidableEq, Repr

def getArticleAux (resp : Backend → ArticleResp) (isMainPage : Bool) :
    Nat → ArticleRunState → Bool → ArticleRunState × Except ArticleFailure Nat
  | 0, st, _ => (st, .error .noFuel)
  | fuel + 1, st, forceParsoidFallbackArg =>
    match resp (getArticleUrl st forceParsoidFallbackArg isMainPage) with
    | .apiError => ({ st with forceParsoidFallback := true }, .error .apiError)
    | .okJson v => (st, .ok v)
    | .httpError status =>
      if forceParsoidFallbackArg then (st, .error (.httpError status))
      else if status = 404 then (st, .error (.httpError 404))
      else getArticleAux resp isMainPage fuel st true

/-- One `getArticle` call; the recursion depth is at most 2 (the initial
attempt plus the single forced-fallback retry), so fuel 2 is exact. -/
def getArticle (st : ArticleRunState) (resp : Backend → ArticleResp)
    (isMainPage forceParsoidFallbackArg : Bool) :
    ArticleRunState × Except ArticleFailure Nat :=
  getArticleAux resp isMainPage 2 st forceParsoidFallbackArg

/-- C9: a `getArticle` call that receives a structured `api_error` response
sets the sticky fallback latch; the latch is never reset by any later call;
and while the latch is set every `getArticle` call selects the Parsoid
fallback URL and its outcome is entirely independent of the primary
(mobile-rendering) backend — the primary is never re-attempted. -/
theorem getArticle_sticky_fallback :
    (∀ (st : ArticleRunState) (resp : Backend → ArticleResp) (mp f : Bool),
      (getArticle st resp mp f).2 = .error .apiError →
      (getArticle st resp mp f).1.forceParsoidFallback = true) ∧
    (∀ (st : ArticleRunState) (resp : Backend → ArticleResp) (mp f : Bool),
      st.forceParsoidFallback = true →
      (getArticle st resp mp f).1.forceParsoidFallback = true) ∧
    (∀ (st : ArticleRunState) (f mp : Bool), st.forceParsoidFallback = true →
      getArticleUrl st f mp = .parsoidFallback) ∧
    (∀ (st : ArticleRunState) (resp resp' : Backend → ArticleResp) (mp f : Bool),
      st.forceParsoidFallback = true →
      resp .parsoidFallback = resp' .parsoidFallback →
      getArticle st resp mp f = getArticle st resp' mp f) := by
  have hurl : ∀ (st : ArticleRunState) (f mp : Bool), st.forceParsoidFallback = true →
      getArticleUrl st f mp = .parsoidFallback := by
    intro st f mp h
    rw [getArticleUrl, if_pos (by rw [h]; simp)]
  refine ⟨?_, ?_, hurl, ?_⟩
  · intro st resp mp f h
    rw [getArticle] at h ⊢
    cases f with
    | true =>
      cases hr : resp (getArticleUrl st true mp) with
      | apiError => simp [getArticleAux, hr]
      | okJson v => simp [getArticleAux, hr] at h
      | httpError status => simp [getArticleAux, hr] at h
    | false =>
      cases hr : resp (getArticleUrl st false mp) with
      | apiError => simp [getArticleAux, hr]
      | okJson v => simp [getArticleAux, hr] at h
      | httpError status =>
        by_cases h404 : status = 404
        · simp [getArticleAux, hr, h404] at h
        · cases hr2 : resp (getArticleUrl st true mp) with
          | apiError => simp [getArticleAux, hr, h404, hr2]
          | okJson v => simp [getArticleAux, hr, h404, hr2] at h
          | httpError s2 => simp [getArticleAux, hr, h404, hr2] at h
  · intro st resp mp f h
    rw [getArticle]
    cases f with
    | true =>
      cases hr : resp (getArticleUrl st true mp) with
      | apiError => simp [getArticleAux, hr]
      | okJson v => simp [getArticleAux, hr, h]
      | httpError status => simp [getArticleAux, hr, h]
    | false =>
      cases hr : resp (getArticleUrl st false mp) with
      | apiError => simp [getArticleAux, hr]
      | okJson v => simp [getArticleAux, hr, h]
      | httpError status =>
        by_cases h404 : status = 404
        · simp [getArticleAux, hr, h404, h]
        · cases hr2 : resp (getArticleUrl st true mp) with
          | apiError => simp [getArticleAux, hr, h404, hr2]
          | okJson v => simp [getArticleAux, hr, h404, hr2, h]
          | httpError s2 => simp [getArticleAux, hr, h404, hr2, h]
  · intro st resp resp' mp f h hresp
    rw [getArticle, getArticle]
    simp only [getArticleAux, hurl st f mp h, hurl st true mp h, hresp]

/-- Witness for `getArticle_sticky_fallback` at concrete inputs. -/
theorem getArticle_sticky_fallback_witness :
    (getArticle ⟨false, true⟩ (fun _ => .apiError) false false).1.forceParsoidFallback = true ∧
    (getArticle ⟨true, true⟩ (fun _ => .okJson 1) false false).1.forceParsoidFallback = true ∧
    getArticleUrl ⟨true, true⟩ false false = .parsoidFallback ∧
    getArticle ⟨true, true⟩ (fun b => if b = .mcs then .apiError else .okJson 1) false false =
      getArticle ⟨true, true⟩ (fun _ => .okJson 1) false false :=
  ⟨getArticle_sticky_fallback.1 ⟨false, true⟩ (fun _ => .apiError) false false rfl,
   getArticle_sticky_fallback.2.1 ⟨true, true⟩ (fun _ => .okJson 1) false false rfl,
   getArticle_sticky_fallback.2.2.1 ⟨true, true⟩ false false rfl,
   getArticle_sticky_fallback.2.2.2 ⟨true, true⟩
     (fun b => if b = .mcs then .apiError else .okJson 1) (fun _ => .okJson 1) false false
     rfl rfl⟩

/-! ### Model of `stripNonContinuedProps` and the continuation merge step

`PageDetail` carries the per-article fields that the whitelist map in
`stripNonContinuedProps` can touch (absent fields are `none`; the code's
truthiness test folds into `Option`).  `propsMap` is the fixed map
`pageimages -> [thumbnail, pageimage]`, `redirects -> [redirects]`,
`coordinates -> [coordinates]`, `categories -> [categories]`; the
continuation token is modelled by the list of module names it contains
(`Object.keys(cont)`).  `mergeDetail` models `deepmerge`: list-valued
fields concatenate, scalar fields are overwritten by the right side, and a
field absent on one side keeps the other side's value.

Both call sites — `getArticleDetailsIds` and `getArticleDetailsNS` — invoke
`this.stripNonContinuedProps(processedResponse)` with no second argument,
so `cont` defaults to `{}` and `keysToKeep` is always just
`['subCategories']`; `mergeContinuationStep` is the merge step as the code
actually executes it on a non-terminal page. -/

structure PageDetail where
  thumbnail : Option String
  pageimage : Option String
  redirects : Option (List String)
  coordinates : Option (List String)
  categories : Option (List String)
  subCategories : Option (List String)
deriving DecidableEq, Repr

def propsMap (key : String) : List String :=
  if key = "pageimages" then ["thumbnail", "pageimage"]
  else if key = "redirects" then ["redirects"]
  else if key = "coordinates" then ["coordinates"]
  else if key = "categories" then ["categories"]
  else []

def keysToKeep (cont : List String) : List String :=
  "subCategories" :: cont.flatMap propsMap

def keepField {α : Type} (cont : List String) (name : String) (v : Option α) : Option α :=
  if name ∈ keysToKeep cont then v else none

def stripNonContinuedProps (cont : List String) (d : PageDetail) : PageDetail where
  thumbnail := keepField cont "thumbnail" d.thumbnail
  pageimage := keepField cont "pageimage" d.pageimage
  redirects := keepField cont "redirects" d.redirects
  coordinates := keepField cont "coordinates" d.coordinates
  categories := keepField cont "categories" d.categories
  subCategories := keepField cont "subCategories" d.subCategories

def mergeOpt {α : Type} (f : α → α → α) : Option α → Option α → Option α
  | o, none => o
  | none, some b => some b
  | some a, some b => some (f a b)

def mergeDetail (old new : PageDetail) : PageDetail where
  thumbnail := mergeOpt (fun _ b => b) old.thumbnail new.thumbnail
  pageimage := mergeOpt (fun _ b => b) old.pageimage new.pageimage
  redirects := mergeOpt (· ++ ·) old.redirects new.redirects
  coordinates := mergeOpt (· ++ ·) old.coordinates new.coordinates
  categories := mergeOpt (· ++ ·) old.categories new.categories
  subCategories := mergeOpt (· ++ ·) old.subCategories new.subCategories

/-- The non-terminal merge step as written in `getArticleDetailsIds` (line
345) and `getArticleDetailsNS` (line 402): `stripNonContinuedProps` is
called without the continuation token. -/
def mergeContinuationStep (acc page : PageDetail) : PageDetail :=
  mergeDetail acc (stripNonContinuedProps [] page)

/-- C1 (code evaluated at the failing input): on a non-terminal page whose
continuation token names only `coordinates` (`cocontinue`), the merge step
as executed drops the page's `coordinates` field — because the call sites
omit the token, only `subCategories` survives the strip — while the same
function applied with the token, as the whitelist intends, keeps
`coordinates` and drops `categories`.  An already-finalized `categories`
field of the accumulator is left untouched either way. -/
theorem stripNonContinuedProps_callsite_bug :
    (mergeContinuationStep
        ⟨none, none, none, none, some ["Old"], none⟩
        ⟨none, none, none, some ["1;2"], none, none⟩).coordinates = none ∧
    (mergeContinuationStep
        ⟨none, none, none, none, some ["Old"], none⟩
        ⟨none, none, none, some ["1;2"], none, none⟩).categories = some ["Old"] ∧
    stripNonContinuedProps ["coordinates"]
        ⟨none, none, none, some ["1;2"], some ["New"], none⟩ =
      ⟨none, none, none, some ["1;2"], none, none⟩ ∧
    stripNonContinuedProps []
        ⟨some "t", some "p", some ["r"], some ["1;2"], some ["c"], some ["s"]⟩ =
      ⟨none, none, none, none, none, some ["s"]⟩ := by
  refine ⟨rfl, rfl, by decide, by decide⟩

/-! ### Model of `serializeUrl` / `deserializeUrl` (the URL shortener)

Urls are character lists.  `urlPath` models `urlParser.parse(url).path` of
the node legacy url parser for `scheme://authority/path?query` urls: the
part from the first `/` after the `//` marker to the end.  `replaceFirst`
models JavaScript `String.replace` with a string pattern: it removes the
first occurrence of the pattern.  `splitUnderscore` / `joinUnderscore`
model `split('_')` / `join('_')`.  The prefix cache `urlPartCache` is an
association list in insertion order; a fresh id is
`String(Object.keys(cache).length + 1)`; a lookup of a missing id yields
the JavaScript `undefined`, which string interpolation renders as the text
`undefined`. -/

def dropUntilSlashSlash : List Char → Option (List Char)
  | [] => none
  | '/' :: '/' :: rest => some rest
  | _ :: rest => dropUntilSlashSlash rest

def afterAuthority : List Char → List Char
  | [] => []
  | c :: rest => if c = '/' then c :: rest else afterAuthority rest

def urlPath (u : List Char) : List Char :=
  match dropUntilSlashSlash u with
  | none => []
  | some rest => afterAuthority rest

def replaceFirst (pat : List Char) : List Char → List Char
  | [] => []
  | c :: rest =>
    if pat.isPrefixOf (c :: rest) then (c :: rest).drop pat.length
    else c :: replaceFirst pat rest

def splitUnderscore : List Char → List (List Char)
  | [] => [[]]
  | c :: rest =>
    match splitUnderscore rest with
    | [] => [[c]]
    | h :: t => if c = '_' then [] :: h :: t else (c :: h) :: t

def joinUnderscore : List (List Char) → List Char
  | [] => []
  | [x] => x
  | x :: y :: t => x ++ '_' :: joinUnderscore (y :: t)

abbrev UrlPartCache := List (List Char × List Char)

def serializeUrl (cache : UrlPartCache) (url : List Char) :
    UrlPartCache × List Char :=
  let path := urlPath url
  let cacheablePart := replaceFirst path url
  match cache.find? (fun e => e.2 == cacheablePart) with
  | some e => (cache, '_' :: (e.1 ++ '_' :: path))
  | none =>
    let cacheId := natToChars (cache.length + 1)
    (cache ++ [(cacheId, cacheablePart)], '_' :: (cacheId ++ '_' :: path))

def deserializeUrl (cache : UrlPartCache) (url : List Char) : List Char :=
  if url.head? = some '_' then
    match splitUnderscore url with
    | _ :: cacheId :: pathParts =>
      (match cache.find? (fun e => e.1 == cacheId) with
       | some e => e.2
       | none => ['u', 'n', 'd', 'e', 'f', 'i', 'n', 'e', 'd']) ++
        joinUnderscore pathParts
    | _ => ['u', 'n', 'd', 'e', 'f', 'i', 'n', 'e', 'd']
  else url

theorem splitUnderscore_ne_nil (l : List Char) : splitUnderscore l ≠ [] := by
  cases l with
  | nil => simp [splitUnderscore]
  | cons c rest =>
    rw [splitUnderscore]
    cases splitUnderscore rest with
    | nil => simp
    | cons h t =>
      show (if c = '_' then [] :: h :: t else (c :: h) :: t) ≠ []
      by_cases hc : c = '_'
      · rw [if_pos hc]; simp
      · rw [if_neg hc]; simp

theorem joinUnderscore_splitUnderscore (l : List Char) :
    joinUnderscore (splitUnderscore l) = l := by
  induction l with
  | nil => rfl
  | cons c rest ih =>
    rw [splitUnderscore]
    cases hsplit : splitUnderscore rest with
    | nil => exact absurd hsplit (splitUnderscore_ne_nil rest)
    | cons h t =>
      rw [hsplit] at ih
      show joinUnderscore (if c = '_' then [] :: h :: t else (c :: h) :: t) = c :: rest
      by_cases hc : c = '_'
      · rw [if_pos hc, joinUnderscore]
        subst hc
        rw [ih]
        rfl
      · rw [if_neg hc]
        cases t with
        | nil => rw [joinUnderscore] at ih ⊢; rw [ih]
        | cons y t' =>
          rw [joinUnderscore] at ih ⊢
          rw [List.cons_append, ih]

/-- C8 (counterexample): for the url `http://h/h/` the parsed path is
`/h/`, whose first occurrence in the url is at index 6, inside the
authority part; `url.replace(path, '')` therefore removes the wrong
occurrence, the cached prefix becomes `http:/h/`, and
`deserializeUrl(serializeUrl(u))` returns `http:/h//h/`, not the original
url. -/
theorem urlShortener_roundtrip_cex :
    deserializeUrl
        (serializeUrl [] ['h', 't', 't', 'p', ':', '/', '/', 'h', '/', 'h', '/']).1
        (serializeUrl [] ['h', 't', 't', 'p', ':', '/', '/', 'h', '/', 'h', '/']).2 ≠
      ['h', 't', 't', 'p', ':', '/', '/', 'h', '/', 'h', '/'] := by decide

/-- C8 (amended): starting from an empty prefix cache,
`deserializeUrl (serializeUrl u)` returns `u` for every url whose parsed
path first occurs in `u` only as its trailing suffix (so that
`url.replace(path, '')` removes exactly the trailing path) — in particular
for every url whose path occurs exactly once; and for every string not in
the shorthand form (not starting with `_`), `deserializeUrl` returns it
unchanged. -/
theorem urlShortener_roundtrip_amended :
    (∀ u : List Char, replaceFirst (urlPath u) u ++ urlPath u = u →
      deserializeUrl (serializeUrl [] u).1 (serializeUrl [] u).2 = u) ∧
    (∀ (cache : UrlPartCache) (s : List Char), s.head? ≠ some '_' →
      deserializeUrl cache s = s) := by
  constructor
  · intro u hu
    rw [serializeUrl]
    simp only [List.find?_nil]
    rw [deserializeUrl]
    have hid : natToChars (List.length ([] : UrlPartCache) + 1) = ['1'] := by decide
    rw [hid]
    rw [if_pos (by simp)]
    have hsplit : splitUnderscore ('_' :: (['1'] ++ '_' :: urlPath u)) =
        [] :: ['1'] :: splitUnderscore (urlPath u) := by
      rw [splitUnderscore]
      cases hs : splitUnderscore (['1'] ++ '_' :: urlPath u) with
      | nil => exact absurd hs (splitUnderscore_ne_nil _)
      | cons h t =>
        show (if '_' = '_' then [] :: h :: t else ('_' :: h) :: t) =
          [] :: ['1'] :: splitUnderscore (urlPath u)
        rw [if_pos rfl]
        have hsteps : splitUnderscore (['1'] ++ '_' :: urlPath u) =
            ['1'] :: splitUnderscore (urlPath u) := by
          show splitUnderscore ('1' :: '_' :: urlPath u) = _
          rw [splitUnderscore]
          cases hs2 : splitUnderscore ('_' :: urlPath u) with
          | nil => exact absurd hs2 (splitUnderscore_ne_nil _)
          | cons h2 t2 =>
            show (if '1' = '_' then [] :: h2 :: t2 else ('1' :: h2) :: t2) = _
            rw [if_neg (by decide)]
            rw [splitUnderscore] at hs2
            cases hs3 : splitUnderscore (urlPath u) with
            | nil => exact absurd hs3 (splitUnderscore_ne_nil _)
            | cons h3 t3 =>
              rw [hs3] at hs2
              rw [show (match h3 :: t3 with
                  | [] => [['_']]
                  | h :: t => if '_' = '_' then [] :: h :: t else ('_' :: h) :: t) =
                  [] :: h3 :: t3 from if_pos rfl] at hs2
              injection hs2 with e1 e2
              subst e1
              rw [← e2]
        rw [hs] at hsteps
        rw [hsteps]
    rw [hsplit]
    simp only [List.find?_cons, List.find?_nil]
    rw [joinUnderscore_splitUnderscore]
    simpa using hu
  · intro cache s hs
    rw [deserializeUrl, if_neg hs]

/-- Witness for `urlShortener_roundtrip_amended` at concrete inputs. -/
theorem urlShortener_roundtrip_amended_witness :
    deserializeUrl
        (serializeUrl [] ['h', 't', 't', 'p', ':', '/', '/', 'a', '/', 'b']).1
        (serializeUrl [] ['h', 't', 't', 'p', ':', '/', '/', 'a', '/', 'b']).2 =
      ['h', 't', 't', 'p', ':', '/', '/', 'a', '/', 'b'] ∧
    deserializeUrl [] ['x', '_', 'y'] = ['x', '_', 'y'] :=
  ⟨urlShortener_roundtrip_amended.1 ['h', 't', 't', 'p', ':', '/', '/', 'a', '/', 'b']
      (by decide),
   urlShortener_roundtrip_amended.2 [] ['x', '_', 'y'] (by decide)⟩

/-! ### Model of `RedisKvs.iterateItems` / `RedisKvs.scan` (the shared-cursor pass)

The backing table is abstracted as its key indices `0 .. numKeys-1`; an
`hscan` over it returns, from cursor `c`, the next `batchSize` indices and
the follow-up cursor, with `0` signalling full-table wraparound (this
models the redis guarantee that one complete cursor iteration visits every
field).  `iterateItems(numWorkers, func)` starts `numWorkers` workers; each
worker loops: `await this.scan()`, `if (hasLooped) return`, `if (cursor ===
'0') hasLooped = true`, `await func(batch)`, repeat.  All `scan()` calls
chain on one shared `pendingScan` promise, so the underlying `hscan`
requests form a single FIFO (`chain` holds the requesting worker ids in
order).

Scheduling is cooperative: when a scan resolves, the requesting worker's
continuation (the `hasLooped` check, the flag update and the synchronous
entry into `func`) runs as the first microtask, and no other scan can
resolve in between — the next chained `hscan` is only issued in a later
microtask and its reply arrives in a later event-loop turn, and `hasLooped`
is only ever written by such continuations.  The machine therefore treats
scan-resolution (plus the receiving worker's reaction) and
func-completion (plus the immediate re-issue of `scan()` at the loop top)
as its two atomic transitions; the scheduler choice between them covers
every real interleaving.  `events` is a ghost history of the executed
`hscan` calls: `issueCursor` is `this.scanCursor` when the request is
issued, and `afterWrap` records whether `hasLooped` was already set at that
moment. -/

structure ScanConfig where
  numKeys : Nat
  batchSize : Nat
  numWorkers : Nat

def hscanStep (cfg : ScanConfig) (c : Nat) : Nat × List Nat :=
  (if cfg.numKeys ≤ c + cfg.batchSize then 0 else c + cfg.batchSize,
   List.range' c (min cfg.batchSize (cfg.numKeys - c)))

inductive WorkerStatus where
  | waiting
  | processing (batch : List Nat)
  | done
deriving DecidableEq, Repr

structure ScanEvent where
  issueCursor : Nat
  resultCursor : Nat
  afterWrap : Bool
  batch : List Nat
deriving DecidableEq, Repr

structure ScanState where
  scanCursor : Nat
  hasLooped : Bool
  chain : List Nat
  workers : Nat → WorkerStatus
  processed : List Nat
  events : List ScanEvent

inductive ScanChoice where
  | scanResolve
  | funcReturn (w : Nat)
deriving DecidableEq, Repr

def scanInit (cfg : ScanConfig) : ScanState where
  scanCursor := 0
  hasLooped := false
  chain := List.range cfg.numWorkers
  workers := fun _ => .waiting
  processed := []
  events := []

def scanStep (cfg : ScanConfig) (s : ScanState) : ScanChoice → ScanState
  | .scanResolve =>
    match s.chain with
    | [] => s
    | w :: rest =>
      let c' := (hscanStep cfg s.scanCursor).1
      let batch := (hscanStep cfg s.scanCursor).2
      let ev : ScanEvent := ⟨s.scanCursor, c', s.hasLooped, batch⟩
      if s.hasLooped then
        { scanCursor := c', hasLooped := true, chain := rest,
          workers := fun w' => if w' = w then .done else s.workers w',
          processed := s.processed, events := s.events ++ [ev] }
      else
        { scanCursor := c', hasLooped := decide (c' = 0), chain := rest,
          workers := fun w' => if w' = w then .processing batch else s.workers w',
          processed := s.processed, events := s.events ++ [ev] }
  | .funcReturn w =>
    match s.workers w with
    | .processing batch =>
      { scanCursor := s.scanCursor, hasLooped := s.hasLooped,
        chain := s.chain ++ [w],
        workers := fun w' => if w' = w then .waiting else s.workers w',
        processed := s.processed ++ batch, events := s.events }
    | _ => s

def scanRun (cfg : ScanConfig) (sched : List ScanChoice) : ScanState :=
  sched.foldl (scanStep cfg) (scanInit cfg)

def allWorkersDone (cfg : ScanConfig) (s : ScanState) : Prop :=
  ∀ w < cfg.numWorkers, s.workers w = .done

/-- Keys delivered by scans issued before wraparound was observed. -/
def deliveredPreWrap (evs : List ScanEvent) : List Nat :=
  (evs.filter (fun e => !e.afterWrap)).flatMap (·.batch)

/-- The cursor sequence of the serialized scan chain is deterministic. -/
def detCursor (cfg : ScanConfig) : Nat → Nat
  | 0 => 0
  | k + 1 => (hscanStep cfg (detCursor cfg k)).1

def detLooped (cfg : ScanConfig) : Nat → Bool
  | 0 => false
  | k + 1 => detLooped cfg k || decide ((hscanStep cfg (detCursor cfg k)).1 = 0)

def detEvent (cfg : ScanConfig) (k : Nat) : ScanEvent :=
  ⟨detCursor cfg k, (hscanStep cfg (detCursor cfg k)).1, detLooped cfg k,
   (hscanStep cfg (detCursor cfg k)).2⟩

def detLog (cfg : ScanConfig) (n : Nat) : List ScanEvent :=
  (List.range n).map (detEvent cfg)

theorem detLog_succ (cfg : ScanConfig) (n : Nat) :
    detLog cfg (n + 1) = detLog cfg n ++ [detEvent cfg n] := by
  rw [detLog, detLog, List.range_succ, List.map_append, List.map_singleton]

theorem mem_deliveredPreWrap {i : Nat} {evs : List ScanEvent} :
    i ∈ deliveredPreWrap evs ↔ ∃ e ∈ evs, e.afterWrap = false ∧ i ∈ e.batch := by
  simp only [deliveredPreWrap, List.mem_flatMap, List.mem_filter,
    Bool.not_eq_true']
  constructor
  · rintro ⟨e, ⟨he, hw⟩, hib⟩
    exact ⟨e, he, hw, hib⟩
  · rintro ⟨e, he, hw, hib⟩
    exact ⟨e, ⟨he, hw⟩, hib⟩

theorem deliveredPreWrap_append (evs : List ScanEvent) (e : ScanEvent) :
    deliveredPreWrap (evs ++ [e]) =
      deliveredPreWrap evs ++ (if e.afterWrap then [] else e.batch) := by
  rw [deliveredPreWrap, List.filter_append, List.flatMap_append, deliveredPreWrap]
  cases hw : e.afterWrap <;> simp [hw]

theorem hscanStep_fst (cfg : ScanConfig) (c : Nat) :
    (hscanStep cfg c).1 =
      if cfg.numKeys ≤ c + cfg.batchSize then 0 else c + cfg.batchSize := rfl

theorem hscanStep_snd (cfg : ScanConfig) (c : Nat) :
    (hscanStep cfg c).2 =
      List.range' c (min cfg.batchSize (cfg.numKeys - c)) := rfl

/-- The run invariant of the shared-cursor pass: the scan chain is
deterministic (ghost log, cursor and flag are functions of the number of
executed scans); queued workers are waiting and queued at most once; a
finished worker implies wraparound was observed; processed keys come only
from batches delivered before wraparound; and every key delivered before
wraparound is either already processed or held by exactly some processing
worker. -/
structure ScanInv (cfg : ScanConfig) (s : ScanState) : Prop where
  cursor_det : s.scanCursor = detCursor cfg s.events.length
  looped_det : s.hasLooped = detLooped cfg s.events.length
  events_det : s.events = detLog cfg s.events.length
  chain_waiting : ∀ w ∈ s.chain, w < cfg.numWorkers ∧ s.workers w = .waiting
  chain_nodup : s.chain.Nodup
  processing_lt : ∀ w batch, s.workers w = .processing batch → w < cfg.numWorkers
  done_looped : ∀ w, s.workers w = .done → s.hasLooped = true
  processed_delivered : ∀ i ∈ s.processed, i ∈ deliveredPreWrap s.events
  processing_delivered : ∀ w batch, s.workers w = .processing batch →
    ∀ i ∈ batch, i ∈ deliveredPreWrap s.events
  delivered_tracked : ∀ i ∈ deliveredPreWrap s.events, i ∈ s.processed ∨
    ∃ w batch, s.workers w = .processing batch ∧ i ∈ batch

theorem scanInv_init (cfg : ScanConfig) : ScanInv cfg (scanInit cfg) := by
  refine ⟨rfl, rfl, rfl, ?_, ?_, ?_, ?_, ?_, ?_, ?_⟩
  · intro w hw
    exact ⟨List.mem_range.mp hw, rfl⟩
  · show (List.range cfg.numWorkers).Nodup
    exact List.nodup_range _
  · intro w batch hw
    simp [scanInit] at hw
  · intro w hw
    simp [scanInit] at hw
  · intro i hi
    simp [scanInit] at hi
  · intro w batch hw
    simp [scanInit] at hw
  · intro i hi
    simp [scanInit, deliveredPreWrap] at hi

theorem scanInv_step (cfg : ScanConfig) (s : ScanState) (c : ScanChoice)
    (h : ScanInv cfg s) : ScanInv cfg (scanStep cfg s c) := by
  cases c with
  | funcReturn w =>
    cases hw : s.workers w with
    | waiting => simpa [scanStep, hw] using h
    | done => simpa [scanStep, hw] using h
    | processing batch =>
      have hwlt : w < cfg.numWorkers := h.processing_lt w batch hw
      have hstep : scanStep cfg s (.funcReturn w) =
          { scanCursor := s.scanCursor, hasLooped := s.hasLooped,
            chain := s.chain ++ [w],
            workers := fun w' => if w' = w then .waiting else s.workers w',
            processed := s.processed ++ batch, events := s.events } := by
        simp [scanStep, hw]
      rw [hstep]
      have hwnotchain : w ∉ s.chain := by
        intro hmem
        have := (h.chain_waiting w hmem).2
        rw [hw] at this
        exact absurd this (by simp)
      refine ⟨h.cursor_det, h.looped_det, h.events_det, ?_, ?_, ?_, ?_, ?_, ?_, ?_⟩ <;>
        dsimp only
      · intro w' hw'
        rcases List.mem_append.mp hw' with h1 | h1
        · obtain ⟨hlt, hwait⟩ := h.chain_waiting w' h1
          refine ⟨hlt, ?_⟩
          by_cases he : w' = w
          · rw [if_pos he]
          · rw [if_neg he]; exact hwait
        · have he : w' = w := by simpa using h1
          subst he
          exact ⟨hwlt, by rw [if_pos rfl]⟩
      · rw [List.nodup_append]
        refine ⟨h.chain_nodup, List.nodup_singleton w, ?_⟩
        intro a ha hb
        have haw : a = w := by simpa using hb
        subst haw
        exact hwnotchain ha
      · intro w' b' hb'
        by_cases he : w' = w
        · rw [if_pos he] at hb'; exact absurd hb' (by simp)
        · rw [if_neg he] at hb'; exact h.processing_lt w' b' hb'
      · intro w' hd
        by_cases he : w' = w
        · rw [if_pos he] at hd; exact absurd hd (by simp)
        · rw [if_neg he] at hd; exact h.done_looped w' hd
      · intro i hi
        rcases List.mem_append.mp hi with h1 | h1
        · exact h.processed_delivered i h1
        · exact h.processing_delivered w batch hw i h1
      · intro w' b' hb' i hib
        by_cases he : w' = w
        · rw [if_pos he] at hb'; exact absurd hb' (by simp)
        · rw [if_neg he] at hb'
          exact h.processing_delivered w' b' hb' i hib
      · intro i hi
        rcases h.delivered_tracked i hi with hproc | ⟨w', b', hw', hib⟩
        · exact Or.inl (List.mem_append_left _ hproc)
        · by_cases he : w' = w
          · subst he
            rw [hw] at hw'
            have : b' = batch := by
              injection hw'.symm
            subst this
            exact Or.inl (List.mem_append_right _ hib)
          · exact Or.inr ⟨w', b', by rw [if_neg he]; exact hw', hib⟩
  | scanResolve =>
    cases hc : s.chain with
    | nil => simpa [scanStep, hc] using h
    | cons w rest =>
      have hwmem : w ∈ s.chain := by rw [hc]; exact List.mem_cons_self w rest
      have hwlt : w < cfg.numWorkers := (h.chain_waiting w hwmem).1
      have hwwait : s.workers w = .waiting := (h.chain_waiting w hwmem).2
      have hwnotin : w ∉ rest := by
        have := h.chain_nodup
        rw [hc] at this
        exact (List.nodup_cons.mp this).1
      have hrest : ∀ w' ∈ rest, w' < cfg.numWorkers ∧ s.workers w' = .waiting :=
        fun w' hw' => h.chain_waiting w' (by rw [hc]; exact List.mem_cons_of_mem w hw')
      have hrestnodup : rest.Nodup := by
        have := h.chain_nodup
        rw [hc] at this
        exact (List.nodup_cons.mp this).2
      have hlen : (s.events ++
          [(⟨s.scanCursor, (hscanStep cfg s.scanCursor).1, s.hasLooped,
            (hscanStep cfg s.scanCursor).2⟩ : ScanEvent)]).length =
          s.events.length + 1 := by simp
      have hev : (⟨s.scanCursor, (hscanStep cfg s.scanCursor).1, s.hasLooped,
          (hscanStep cfg s.scanCursor).2⟩ : ScanEvent) =
          detEvent cfg s.events.length := by
        rw [detEvent, h.cursor_det, h.looped_det]
      by_cases hl : s.hasLooped = true
      · have hstep : scanStep cfg s .scanResolve =
            { scanCursor := (hscanStep cfg s.scanCursor).1, hasLooped := true,
              chain := rest,
              workers := fun w' => if w' = w then .done else s.workers w',
              processed := s.processed,
              events := s.events ++
                [⟨s.scanCursor, (hscanStep cfg s.scanCursor).1, s.hasLooped,
                  (hscanStep cfg s.scanCursor).2⟩] } := by
          simp [scanStep, hc, hl]
        rw [hstep]
        have hdeliv : deliveredPreWrap (s.events ++
            [(⟨s.scanCursor, (hscanStep cfg s.scanCursor).1, s.hasLooped,
              (hscanStep cfg s.scanCursor).2⟩ : ScanEvent)]) =
            deliveredPreWrap s.events := by
          rw [deliveredPreWrap_append]
          show deliveredPreWrap s.events ++ (if s.hasLooped then [] else _) = _
          rw [if_pos hl, List.append_nil]
        refine ⟨?_, ?_, ?_, ?_, hrestnodup, ?_, ?_, ?_, ?_, ?_⟩ <;> dsimp only
        · show (hscanStep cfg s.scanCursor).1 = detCursor cfg _
          rw [hlen, detCursor, h.cursor_det]
        · show true = detLooped cfg _
          rw [hlen, detLooped, ← h.looped_det, hl]
          simp
        · show s.events ++ _ = detLog cfg _
          rw [hlen, detLog_succ, hev, ← h.events_det]
        · intro w' hw'
          obtain ⟨hlt, hwait⟩ := hrest w' hw'
          have hne : w' ≠ w := fun he => hwnotin (he ▸ hw')
          exact ⟨hlt, by rw [if_neg hne]; exact hwait⟩
        · intro w' b' hb'
          by_cases he : w' = w
          · rw [if_pos he] at hb'; exact absurd hb' (by simp)
          · rw [if_neg he] at hb'; exact h.processing_lt w' b' hb'
        · intro w' _
          rfl
        · intro i hi
          rw [hdeliv]
          exact h.processed_delivered i hi
        · intro w' b' hb' i hib
          rw [hdeliv]
          by_cases he : w' = w
          · rw [if_pos he] at hb'; exact absurd hb' (by simp)
          · rw [if_neg he] at hb'
            exact h.processing_delivered w' b' hb' i hib
        · intro i hi
          rw [hdeliv] at hi
          rcases h.delivered_tracked i hi with hproc | ⟨w', b', hw', hib⟩
          · exact Or.inl hproc
          · have hne : w' ≠ w := by
              intro he
              rw [he, hwwait] at hw'
              exact absurd hw' (by simp)
            exact Or.inr ⟨w', b', by rw [if_neg hne]; exact hw', hib⟩
      · have hlf : s.hasLooped = false := by simpa using hl
        have hstep : scanStep cfg s .scanResolve =
            { scanCursor := (hscanStep cfg s.scanCursor).1,
              hasLooped := decide ((hscanStep cfg s.scanCursor).1 = 0),
              chain := rest,
              workers := fun w' => if w' = w then
                .processing (hscanStep cfg s.scanCursor).2 else s.workers w',
              processed := s.processed,
              events := s.events ++
                [⟨s.scanCursor, (hscanStep cfg s.scanCursor).1, s.hasLooped,
                  (hscanStep cfg s.scanCursor).2⟩] } := by
          simp [scanStep, hc, hlf]
        rw [hstep]
        have hdeliv : deliveredPreWrap (s.events ++
            [(⟨s.scanCursor, (hscanStep cfg s.scanCursor).1, s.hasLooped,
              (hscanStep cfg s.scanCursor).2⟩ : ScanEvent)]) =
            deliveredPreWrap s.events ++ (hscanStep cfg s.scanCursor).2 := by
          rw [deliveredPreWrap_append]
          show deliveredPreWrap s.events ++ (if s.hasLooped then [] else _) = _
          rw [hlf]
          simp
        refine ⟨?_, ?_, ?_, ?_, hrestnodup, ?_, ?_, ?_, ?_, ?_⟩ <;> dsimp only
        · show (hscanStep cfg s.scanCursor).1 = detCursor cfg _
          rw [hlen, detCursor, h.cursor_det]
        · show decide ((hscanStep cfg s.scanCursor).1 = 0) = detLooped cfg _
          rw [hlen, detLooped, ← h.looped_det, hlf, h.cursor_det]
          simp
        · show s.events ++ _ = detLog cfg _
          rw [hlen, detLog_succ, hev, ← h.events_det]
        · intro w' hw'
          obtain ⟨hlt, hwait⟩ := hrest w' hw'
          have hne : w' ≠ w := fun he => hwnotin (he ▸ hw')
          exact ⟨hlt, by rw [if_neg hne]; exact hwait⟩
        · intro w' b' hb'
          by_cases he : w' = w
          · exact he ▸ hwlt
          · rw [if_neg he] at hb'; exact h.processing_lt w' b' hb'
        · intro w' hd
          by_cases he : w' = w
          · rw [if_pos he] at hd; exact absurd hd (by simp)
          · rw [if_neg he] at hd
            have := h.done_looped w' hd
            rw [hlf] at this
            exact absurd this (by simp)
        · intro i hi
          rw [hdeliv]
          exact List.mem_append_left _ (h.processed_delivered i hi)
        · intro w' b' hb' i hib
          rw [hdeliv]
          by_cases he : w' = w
          · rw [if_pos he] at hb'
            have hbb : b' = (hscanStep cfg s.scanCursor).2 := by
              injection hb'.symm
            exact List.mem_append_right _ (hbb ▸ hib)
          · rw [if_neg he] at hb'
            exact List.mem_append_left _ (h.processing_delivered w' b' hb' i hib)
        · intro i hi
          rw [hdeliv] at hi
          rcases List.mem_append.mp hi with h1 | h1
          · rcases h.delivered_tracked i h1 with hproc | ⟨w', b', hw', hib⟩
            · exact Or.inl hproc
            · have hne : w' ≠ w := by
                intro he
                rw [he, hwwait] at hw'
                exact absurd hw' (by simp)
              exact Or.inr ⟨w', b', by rw [if_neg hne]; exact hw', hib⟩
          · exact Or.inr ⟨w, (hscanStep cfg s.scanCursor).2, by rw [if_pos rfl], h1⟩

theorem scanInv_run (cfg : ScanConfig) (sched : List ScanChoice) :
    ScanInv cfg (scanRun cfg sched) := by
  rw [scanRun]
  have hfold : ∀ (l : List ScanChoice) (s : ScanState), ScanInv cfg s →
      ScanInv cfg (l.foldl (scanStep cfg) s) := by
    intro l
    induction l with
    | nil => intro s hs; exact hs
    | cons c t ih =>
      intro s hs
      rw [List.foldl_cons]
      exact ih _ (scanInv_step cfg s c hs)
  exact hfold sched _ (scanInv_init cfg)

theorem det_pre_wrap (cfg : ScanConfig) (hb : 1 ≤ cfg.batchSize) :
    ∀ k, k ≤ (cfg.numKeys - 1) / cfg.batchSize →
      detCursor cfg k = k * cfg.batchSize ∧ detLooped cfg k = false := by
  intro k
  induction k with
  | zero => intro _; exact ⟨by simp [detCursor], rfl⟩
  | succ k ih =>
    intro hk
    have hk' : k ≤ (cfg.numKeys - 1) / cfg.batchSize := by omega
    obtain ⟨hc, hlp⟩ := ih hk'
    have hlin : k * cfg.batchSize + cfg.batchSize = (k + 1) * cfg.batchSize := by ring
    have hmul : k * cfg.batchSize + cfg.batchSize ≤ cfg.numKeys - 1 := by
      rw [hlin]
      exact (Nat.le_div_iff_mul_le (by omega)).mp hk
    have hpos : 1 ≤ k * cfg.batchSize + cfg.batchSize := by omega
    have hnw : ¬ (cfg.numKeys ≤ k * cfg.batchSize + cfg.batchSize) := by omega
    constructor
    · show (hscanStep cfg (detCursor cfg k)).1 = _
      rw [hc, hscanStep_fst, if_neg hnw, hlin]
    · show (detLooped cfg k || decide ((hscanStep cfg (detCursor cfg k)).1 = 0)) = false
      rw [hlp, hc, hscanStep_fst, if_neg hnw]
      simp only [Bool.false_or, decide_eq_false_iff_not]
      omega

theorem detLooped_true_gt (cfg : ScanConfig) (hb : 1 ≤ cfg.batchSize) {len : Nat}
    (h : detLooped cfg len = true) : (cfg.numKeys - 1) / cfg.batchSize < len := by
  by_contra hcontra
  push_neg at hcontra
  have := (det_pre_wrap cfg hb len hcontra).2
  rw [h] at this
  exact absurd this (by simp)

theorem key_in_detEvent (cfg : ScanConfig) (hb : 1 ≤ cfg.batchSize) {i : Nat}
    (hi : i < cfg.numKeys) :
    (detEvent cfg (i / cfg.batchSize)).afterWrap = false ∧
    i ∈ (detEvent cfg (i / cfg.batchSize)).batch ∧
    i / cfg.batchSize ≤ (cfg.numKeys - 1) / cfg.batchSize := by
  have hqK : i / cfg.batchSize ≤ (cfg.numKeys - 1) / cfg.batchSize :=
    Nat.div_le_div_right (by omega)
  obtain ⟨hc, hlp⟩ := det_pre_wrap cfg hb (i / cfg.batchSize) hqK
  refine ⟨hlp, ?_, hqK⟩
  show i ∈ (hscanStep cfg (detCursor cfg (i / cfg.batchSize))).2
  rw [hc, hscanStep_snd, List.mem_range'_1]
  have hdm := Nat.div_add_mod i cfg.batchSize
  have hmod := Nat.mod_lt i (show 0 < cfg.batchSize by omega)
  have hcomm : i / cfg.batchSize * cfg.batchSize = cfg.batchSize * (i / cfg.batchSize) :=
    Nat.mul_comm _ _
  constructor
  · omega
  · by_cases hmin : cfg.batchSize ≤ cfg.numKeys - i / cfg.batchSize * cfg.batchSize
    · rw [Nat.min_eq_left hmin]
      omega
    · push_neg at hmin
      rw [Nat.min_eq_right (Nat.le_of_lt hmin)]
      omega

/-- C2 (counterexample): with a one-key table, one worker and any batch
size, the pass completes (the worker exits), but after the first scan call
reports the wraparound cursor `0` the worker still issues one further scan
call at the top of its loop, and that scan restarts the shared cursor from
`0` against the store — contradicting `no worker issues a further scan
call and no worker restarts the cursor`. -/
theorem iterateItems_post_wrap_scan_cex :
    (scanRun ⟨1, 10, 1⟩
        [.scanResolve, .funcReturn 0, .scanResolve]).workers 0 = .done ∧
    (scanRun ⟨1, 10, 1⟩
        [.scanResolve, .funcReturn 0, .scanResolve]).events.length = 2 ∧
    ((scanRun ⟨1, 10, 1⟩
        [.scanResolve, .funcReturn 0, .scanResolve]).events.getLast?).map
        (fun e => (e.afterWrap, e.issueCursor)) = some (true, 0) ∧
    ((scanRun ⟨1, 10, 1⟩
        [.scanResolve, .funcReturn 0, .scanResolve]).events.head?).map
        (·.resultCursor) = some 0 ∧
    (scanRun ⟨1, 10, 1⟩
        [.scanResolve, .funcReturn 0, .scanResolve]).processed = [0] :=
  ⟨rfl, rfl, rfl, rfl, rfl⟩

/-- C2 (amended): for every table size, batch size ≥ 1, worker count ≥ 1
and every cooperative schedule under which the pass completes (all workers
exited), every key of the table was delivered to `func` at least once
before completion, and every processed key came from a batch delivered by a
scan issued before wraparound was observed — the batches returned by the up
to one extra scan call each worker issues after wraparound are discarded,
and no worker processes a batch after wraparound is observed.  (The claim's
`no scan call is issued after wraparound` is refuted by the counterexample:
each worker's loop top issues one final scan, which restarts the cursor,
before the `hasLooped` check makes it exit.) -/
theorem iterateItems_scan_amended (cfg : ScanConfig) (sched : List ScanChoice)
    (hW : 1 ≤ cfg.numWorkers) (hb : 1 ≤ cfg.batchSize)
    (hdone : allWorkersDone cfg (scanRun cfg sched)) :
    (∀ i < cfg.numKeys, i ∈ (scanRun cfg sched).processed) ∧
    (∀ i ∈ (scanRun cfg sched).processed,
      i ∈ deliveredPreWrap (scanRun cfg sched).events) := by
  have hinv := scanInv_run cfg sched
  refine ⟨?_, hinv.processed_delivered⟩
  intro i hi
  have h0 : (scanRun cfg sched).workers 0 = .done := hdone 0 hW
  have hlp : (scanRun cfg sched).hasLooped = true := hinv.done_looped 0 h0
  have hdet : detLooped cfg (scanRun cfg sched).events.length = true := by
    rw [← hinv.looped_det]
    exact hlp
  have hKlen := detLooped_true_gt cfg hb hdet
  obtain ⟨hwq, hbq, hqK⟩ := key_in_detEvent cfg hb hi
  have hqlen : i / cfg.batchSize < (scanRun cfg sched).events.length := by omega
  have hev_mem : detEvent cfg (i / cfg.batchSize) ∈ (scanRun cfg sched).events := by
    rw [hinv.events_det]
    exact List.mem_map.mpr ⟨i / cfg.batchSize, List.mem_range.mpr hqlen, rfl⟩
  have hdel : i ∈ deliveredPreWrap (scanRun cfg sched).events :=
    mem_deliveredPreWrap.mpr ⟨detEvent cfg (i / cfg.batchSize), hev_mem, hwq, hbq⟩
  rcases hinv.delivered_tracked i hdel with hproc | ⟨w, batch, hwproc, hib⟩
  · exact hproc
  · have hwlt := hinv.processing_lt w batch hwproc
    have hwdone := hdone w hwlt
    rw [hwdone] at hwproc
    exact absurd hwproc (by simp)

/-- Witness for `iterateItems_scan_amended` at a concrete completed run:
two keys, batch size 1, one worker. -/
theorem iterateItems_scan_amended_witness :
    (∀ i < (⟨2, 1, 1⟩ : ScanConfig).numKeys,
      i ∈ (scanRun ⟨2, 1, 1⟩ [.scanResolve, .funcReturn 0, .scanResolve,
        .funcReturn 0, .scanResolve]).processed) ∧
    (∀ i ∈ (scanRun ⟨2, 1, 1⟩ [.scanResolve, .funcReturn 0, .scanResolve,
        .funcReturn 0, .scanResolve]).processed,
      i ∈ deliveredPreWrap (scanRun ⟨2, 1, 1⟩ [.scanResolve, .funcReturn 0,
        .scanResolve, .funcReturn 0, .scanResolve]).events) :=
  iterateItems_scan_amended ⟨2, 1, 1⟩
    [.scanResolve, .funcReturn 0, .scanResolve, .funcReturn 0, .scanResolve]
    (by decide) (by decide)
    (by unfold allWorkersDone; decide)
